import Mathlib

/-!
Shallow embedding of `Programming Assignment 1/logic.py`: a finite-domain
first-order-logic evaluator.  The global mutable state of the Python module
(`universe`, `predicates`, `free`, `knowledge_base`, and each `Predicate`
object's `_truths` fact table) is modelled by an explicit `LState` record
threaded through the operations; Python exceptions are modelled by `Except`.
Terms are identified by their `name` string (Python `Term.__hash__` and
`Term.__eq__` compare by name for non-empty names, and only Terms with a
non-empty name ever enter the universe).
-/

/-- Names (Python strings). -/
abbrev Name := String

/-- A domain element: `Term` of logic.py carries just its `name`. -/
structure Term where
  name : Name
deriving DecidableEq, Repr

/-- A `Predicate` object, identified by `id` (Python object identity).
Its mutable fact table `_truths` lives in `LState.tables`, keyed by `id`,
because the table outlives the global `predicates` registry. -/
structure Predicate where
  id : Nat
  arity : Int
  name : Name
deriving DecidableEq, Repr

/-- Local binding environments (`SATAssign`) and the free-variable store
(`FreeVars`) are string-keyed dicts whose values are Terms; modelled as
insertion-ordered association lists of (key, term-name). -/
abbrev SAT := List (Name × Name)

/-- Python dict lookup (keys are strings, values are Terms, by name). -/
def SAT.lookup (m : SAT) (k : Name) : Option Name :=
  (m.find? (fun p => p.1 == k)).map (fun p => p.2)

/-- Python dict assignment `m[k] = v`: replaces the value in place if the
key is present, else appends (dicts preserve insertion order). -/
def SAT.insert (m : SAT) (k v : Name) : SAT :=
  if m.any (fun p => p.1 == k) then
    m.map (fun p => if p.1 == k then (k, v) else p)
  else m ++ [(k, v)]

mutual
/-- The formula AST of logic.py: `Top`, `Bot`, the connectives `_And`,
`_Or`, `_Implies`, `_Not`, the quantifiers `Forall`/`Exists` (binder name
plus scope), and a deferred predicate application `App((predicate, args))`. -/
inductive Formula where
  | top : Formula
  | bot : Formula
  | and : Formula → Formula → Formula
  | or : Formula → Formula → Formula
  | implies : Formula → Formula → Formula
  | not : Formula → Formula
  | forall_ : Name → Formula → Formula
  | exists_ : Name → Formula → Formula
  | app : Predicate → ArgList → Formula

/-- A raw argument of a predicate call: a Python string, a `Term`, a Python
bool (this is what a nested formula argument is replaced by during
resolution in `Predicate.interpret`, and a caller may also pass one), or a
nested Formula/App. -/
inductive Arg where
  | name : Name → Arg
  | term : Name → Arg
  | boolVal : Bool → Arg
  | nested : Formula → Arg

/-- The argument tuple captured by an `App` node. -/
inductive ArgList where
  | nil : ArgList
  | cons : Arg → ArgList → ArgList
end

def ArgList.length : ArgList → Nat
  | .nil => 0
  | .cons _ rest => 1 + rest.length

def ArgList.all (p : Arg → Bool) : ArgList → Bool
  | .nil => true
  | .cons a rest => p a && rest.all p

/-- The process-wide mutable state of the module. -/
structure LState where
  /-- Field for `universe`: the set of registered Terms, by name. -/
  univ : List Name
  /-- Field for `predicates`: the global registry of Predicate objects, by id. -/
  predRegistry : List Nat
  /-- Each `Predicate` object's `_truths` fact table (tuples of Terms, by
  name), keyed by the object's id. -/
  tables : List (Nat × List (List Name))
  /-- Field for `free`: the free-variable store. -/
  free : SAT
  /-- Field for `knowledge_base`: pairs (formula, optional name). -/
  kb : List (Formula × Option Name)

/-- The `_truths` fact table of a Predicate object in a given state. -/
def tableOf (st : LState) (p : Predicate) : List (List Name) :=
  ((st.tables.find? (fun e => e.1 == p.id)).map (fun e => e.2)).getD []

/-- Python exceptions raised by logic.py, with their payloads. -/
inductive LErr where
  /-- A failed `assert`. -/
  | assertionError : LErr
  /-- A `ValueError` with a fixed message. -/
  | valueError : String → LErr
  /-- The unbound-variable `ValueError` of `Predicate.interpret`: carries
  the offending argument's rendering plus snapshots of `universe` and
  `free`. -/
  | unbound : String → List Name → SAT → LErr
  /-- The inconsistency `ValueError` of `Forall.fact`: carries the rejected
  formula and the witness bindings. -/
  | inconsistent : Formula → SAT → LErr
  /-- Python's RecursionError (the interpreter's recursion limit). -/
  | recursionError : LErr

/-- Embeds `Term.__init__`: registers a Term with a non-empty name into the
universe if absent (`if name and self not in universe: universe.add(self)`). -/
def termInit (st : LState) (name : Name) : LState :=
  if name ≠ "" ∧ name ∉ st.univ then { st with univ := st.univ ++ [name] } else st

/-- Embeds `FreeVars.__setitem__`: `super().__setitem__(key, Term(val))` — the
value is coerced to a Term (whose construction registers it in the
universe) and stored; re-binding only prints a warning. -/
def freeBind (st : LState) (key val : Name) : LState :=
  let st' := termInit st val
  { st' with free := st'.free.insert key val }

/-- Embeds `clear_all()`: `universe.clear(); predicates.clear(); free.clear();
knowledge_base.clear()`.  Note it clears the `predicates` registry but not
any Predicate object's `_truths` table. -/
def clear_all (st : LState) : LState :=
  { st with univ := [], predRegistry := [], free := [], kb := [] }

/-- Embeds `Predicate.__init__(arity, name)`: `assert arity < 3`, sets an empty
fact table, and adds the object to the global `predicates` registry. -/
def Predicate.init (st : LState) (arity : Int) (name : Name) (id : Nat) :
    Except LErr (Predicate × LState) :=
  if arity < 3 then
    .ok (⟨id, arity, name⟩,
      { st with predRegistry := id :: st.predRegistry,
                tables := (id, []) :: st.tables })
  else .error .assertionError

/-- Embeds `Term.__and__`: `raise ValueError("And is not defined for terms")`. -/
def Term.andOp {α : Type} (_t : Term) (_other : α) : Except LErr Unit :=
  .error (.valueError "And is not defined for terms")

/-- Embeds `Term.__or__`: `raise ValueError("Or is not defined for terms")`. -/
def Term.orOp {α : Type} (_t : Term) (_other : α) : Except LErr Unit :=
  .error (.valueError "Or is not defined for terms")

/-- Embeds `Term.__not__`: `raise ValueError("Not is not defined for terms")`. -/
def Term.notOp {α : Type} (_t : Term) (_other : α) : Except LErr Unit :=
  .error (.valueError "Not is not defined for terms")

/-- Embeds `Predicate.__eq__`: always raises. -/
def Predicate.eqOp {α : Type} (_p : Predicate) (_other : α) : Except LErr Unit :=
  .error (.valueError "Direct equality testing for predicates not supported")

/-- Embeds `Predicate.__lt__`: always raises. -/
def Predicate.ltOp {α : Type} (_p : Predicate) (_other : α) : Except LErr Unit :=
  .error (.valueError "Predicates should not be compared")

/-- Embeds `Predicate.__gt__`: always raises. -/
def Predicate.gtOp {α : Type} (_p : Predicate) (_other : α) : Except LErr Unit :=
  .error (.valueError "Predicates should not be compared")

/-- Python's `str()` of a bool, as it appears in error messages. -/
def boolStr : Bool → String
  | true => "True"
  | false => "False"

/-- A resolved argument value, as produced by the resolution loop of
`Predicate.interpret`: a raw string kept as-is (it was a universe member),
a Term (kept, or obtained from a bindings/free lookup), or a Python bool
(substituted for a nested formula argument). -/
inductive RVal where
  | rawName : Name → RVal
  | term : Name → RVal
  | boolVal : Bool → RVal
deriving DecidableEq, Repr

/-- Membership test `arg in universe` for a raw argument.  A raw string is a member iff a
Term of that name is registered; a Term with a non-empty name likewise;
an empty-name Term compares by identity and is never registered; bools and
nested formulas are never members. -/
def Arg.inUniv (univ : List Name) : Arg → Bool
  | .name s => decide (s ∈ univ)
  | .term s => decide (s ≠ "" ∧ s ∈ univ)
  | .boolVal _ => false
  | .nested _ => false

/-- Membership test `arg in universe` for an already-resolved argument value. -/
def RVal.inUniv (univ : List Name) : RVal → Bool
  | .rawName s => decide (s ∈ univ)
  | .term s => decide (s ≠ "" ∧ s ∈ univ)
  | .boolVal _ => false

/-- Resolution of one raw-string argument in `Predicate.interpret`: keep it
if it is a universe member, else look it up in the local bindings, else in
the free-variable store, else raise the unbound-variable `ValueError`
carrying the name and snapshots of `universe` and `free`. -/
def resolveNameArg (st : LState) (b : SAT) (s : Name) : Except LErr RVal :=
  if s ∈ st.univ then .ok (.rawName s)
  else match b.lookup s with
  | some v => .ok (.term v)
  | none =>
    match st.free.lookup s with
    | some v => .ok (.term v)
    | none => .error (.unbound s st.univ st.free)

/-- Resolution of a Term argument.  Dict/set probes on a Term compare by
name (via the reflected `Term.__eq__`) when the name is non-empty; an
empty-name Term matches nothing. -/
def resolveTermArg (st : LState) (b : SAT) (s : Name) : Except LErr RVal :=
  if s ≠ "" ∧ s ∈ st.univ then .ok (.term s)
  else match (if s = "" then none else b.lookup s) with
  | some v => .ok (.term v)
  | none =>
    match (if s = "" then none else st.free.lookup s) with
    | some v => .ok (.term v)
    | none => .error (.unbound s st.univ st.free)

/-- Resolution of one already-resolved value when `Predicate.interpret`
re-enters itself on a still-deferred application: a bool is not a universe
member, not a Formula/App, and (bindings and free being string-keyed)
matches no binding, so it raises the unbound-variable error. -/
def resolveRVal (st : LState) (b : SAT) : RVal → Except LErr RVal
  | .rawName s => resolveNameArg st b s
  | .term s => resolveTermArg st b s
  | .boolVal v => .error (.unbound (boolStr v) st.univ st.free)

/-- The resolution loop of `Predicate.interpret` over formula-free
arguments (the shape every argument has from the second round on). -/
def resolveFlat (st : LState) (b : SAT) : List RVal → Except LErr (List RVal)
  | [] => .ok []
  | r :: rest => do
    let r' ← resolveRVal st b r
    let rest' ← resolveFlat st b rest
    .ok (r' :: rest')

/-- The termify loop of `Predicate.__call__`'s eager branch, over resolved
values: Terms and raw strings yield their name (a raw string is wrapped in
`Term(arg)`, registering nothing since it is already a universe member);
anything else raises `ValueError`. -/
def termifyR : List RVal → Except LErr (List Name)
  | [] => .ok []
  | .rawName s :: rest => do
    let ns ← termifyR rest
    .ok (s :: ns)
  | .term s :: rest => do
    let ns ← termifyR rest
    .ok (s :: ns)
  | .boolVal _ :: _ => .error (.valueError "Type unsuitable for terms")

/-- Result of `Predicate.__call__`: an eagerly evaluated truth value
(`Top`/`Bot`), or a still-deferred application. -/
inductive CallRes where
  | eager : Bool → CallRes
  | deferred : List RVal → CallRes
deriving DecidableEq, Repr

/-- Embeds `Predicate.__call__` as re-invoked from inside `Predicate.interpret`
on resolved values: arity assert, eager/deferred dispatch on universe
membership, and fact-table lookup in the eager branch. -/
def callR (st : LState) (p : Predicate) (args : List RVal) : Except LErr CallRes :=
  if (args.length : Int) ≠ p.arity then .error .assertionError
  else if args.all (RVal.inUniv st.univ) then do
    let names ← termifyR args
    .ok (.eager (decide (names ∈ tableOf st p)))
  else .ok (.deferred args)

/-- Python's default recursion limit, reached when `Predicate.interpret`
keeps re-entering itself on a still-deferred application. -/
def recLimit : Nat := 1000

/-- The self-re-invocation `self(*arglist).interpret(bindings)` of
`Predicate.interpret`, iterated: resolve the (formula-free) arguments,
re-call the predicate, and either finish on `Top`/`Bot` or re-enter.  The
fuel models Python's recursion limit (a `RecursionError` when exhausted). -/
def reapply (st : LState) (p : Predicate) : Nat → List RVal → SAT → Except LErr (Bool × SAT)
  | 0, _, _ => .error .recursionError
  | fuel + 1, args, b => do
    let resolved ← resolveFlat st b args
    match ← callR st p resolved with
    | .eager tv => .ok (tv, b)
    | .deferred args' => reapply st p fuel args' b

/-- The loop of `Forall.interpret`, over a snapshot of the universe list:
bind the binder to each element in turn, evaluate the scope, stop with
`(False, bindings)` at the first falsifying element, else `(True,
bindings)` after exhaustion.  The scope's interpreter is passed as `f`. -/
def forallAux (f : SAT → Except LErr (Bool × SAT)) (binder : Name) :
    List Name → SAT → Except LErr (Bool × SAT)
  | [], b => .ok (true, b)
  | e :: rest, b =>
    match f (b.insert binder e) with
    | .error err => .error err
    | .ok (tv, m) => if tv then forallAux f binder rest m else .ok (false, m)

/-- The loop of `Exists.interpret`: stop with `(True, bindings)` at the
first satisfying element, else `(False, bindings)` after exhaustion. -/
def existsAux (f : SAT → Except LErr (Bool × SAT)) (binder : Name) :
    List Name → SAT → Except LErr (Bool × SAT)
  | [], b => .ok (false, b)
  | e :: rest, b =>
    match f (b.insert binder e) with
    | .error err => .error err
    | .ok (tv, m) => if tv then .ok (true, m) else existsAux f binder rest m

mutual
/-- The recursive evaluator: `interpret` of `Top`, `Bot`, `_And`, `_Or`,
`_Implies`, `_Not`, `Forall`, `Exists`, and (via `App.interpret`)
`Predicate.interpret` of a deferred application: resolve each raw
argument (a nested Formula/App is interpreted and replaced by its truth
value), re-call the predicate, and interpret the re-call's result. -/
def interpret (st : LState) : Formula → SAT → Except LErr (Bool × SAT)
  | .top => fun b => .ok (true, b)
  | .bot => fun b => .ok (false, b)
  | .and l r => fun b => do
    let (b1, m1) ← interpret st l b
    let (b2, m2) ← interpret st r m1
    .ok (b1 && b2, m2)
  | .or l r => fun b => do
    let (b1, m1) ← interpret st l b
    let (b2, m2) ← interpret st r m1
    .ok (b1 || b2, m2)
  | .implies l r => fun b => do
    let (tv, b') ← interpret st l b
    if tv then interpret st r b' else .ok (true, b')
  | .not e => fun b => do
    let (tv, b') ← interpret st e b
    .ok (!tv, b')
  | .forall_ x s => fun b => forallAux (interpret st s) x st.univ b
  | .exists_ x s => fun b => existsAux (interpret st s) x st.univ b
  | .app p args => fun b => do
    let (rs, b') ← resolveArgs st args b
    match ← callR st p rs with
    | .eager tv => .ok (tv, b')
    | .deferred rs' => reapply st p recLimit rs' b'

/-- One step of the argument-resolution loop of `Predicate.interpret`. -/
def resolveArg (st : LState) : Arg → SAT → Except LErr (RVal × SAT)
  | .name s => fun b => (resolveNameArg st b s).map (fun r => (r, b))
  | .term s => fun b => (resolveTermArg st b s).map (fun r => (r, b))
  | .boolVal v => fun _ => .error (.unbound (boolStr v) st.univ st.free)
  | .nested f => fun b =>
    match interpret st f b with
    | .error err => .error err
    | .ok (tv, b') => .ok (.boolVal tv, b')

/-- The argument-resolution loop of `Predicate.interpret`, threading the
bindings (interpreting a nested formula may extend them) and raising at
the first unresolvable argument. -/
def resolveArgs (st : LState) : ArgList → SAT → Except LErr (List RVal × SAT)
  | .nil => fun b => .ok ([], b)
  | .cons a rest => fun b => do
    let (r, b1) ← resolveArg st a b
    let (rs, b2) ← resolveArgs st rest b1
    .ok (r :: rs, b2)
end

/-- The termify loop of `Predicate.__call__` on raw user arguments,
threading `Term(arg)` construction for raw strings through the state. -/
def termify (st : LState) : ArgList → Except LErr (List Name × LState)
  | .nil => .ok ([], st)
  | .cons a rest =>
    match a with
    | .term s => (termify st rest).map (fun p => (s :: p.1, p.2))
    | .name s => (termify (termInit st s) rest).map (fun p => (s :: p.1, p.2))
    | .boolVal _ => .error (.valueError "Type unsuitable for terms")
    | .nested _ => .error (.valueError "Type unsuitable for terms")

/-- Embeds `Predicate.__call__` on raw user arguments: arity assert; if some
argument is not a universe member, return the deferred `App((self, args))`
without touching anything; else coerce the arguments to Terms and return
`Top` or `Bot` by fact-table membership. -/
def Predicate.call (st : LState) (p : Predicate) (args : ArgList) :
    Except LErr (Formula × LState) :=
  if (args.length : Int) ≠ p.arity then .error .assertionError
  else if args.all (Arg.inUniv st.univ) then do
    let (names, st') ← termify st args
    .ok (if names ∈ tableOf st' p then (.top, st') else (.bot, st'))
  else .ok (.app p args, st)

/-- Embeds `Forall.fact(binder, expr, name)`: build the `Forall`, interpret it
with the bindings initialised to a copy of the free-variable store; on
false raise the inconsistency error carrying the witness bindings, on true
add `(formula, name)` to the knowledge base. -/
def forallFact (st : LState) (binder : Name) (scope : Formula) (name : Option Name) :
    Except LErr LState :=
  match interpret st (.forall_ binder scope) st.free with
  | .error err => .error err
  | .ok (tv, e) =>
    if tv then .ok { st with kb := (Formula.forall_ binder scope, name) :: st.kb }
    else .error (.inconsistent (.forall_ binder scope) e)

/-- Conversion of the captured argument tuple to a plain list. -/
def ArgList.toList : ArgList → List Arg
  | .nil => []
  | .cons a rest => a :: rest.toList

/-- The underlying name of a concrete argument (raw string or Term). -/
def Arg.nameOf : Arg → Name
  | .name s => s
  | .term s => s
  | .boolVal _ => ""
  | .nested _ => ""

/-- The names of an argument tuple (meaningful for concrete arguments). -/
def ArgList.names : ArgList → List Name
  | .nil => []
  | .cons a rest => a.nameOf :: rest.names

/-- An argument that is a plain name or a Term (not a nested formula, not
a bool). -/
def Arg.flat : Arg → Bool
  | .name _ => true
  | .term _ => true
  | .boolVal _ => false
  | .nested _ => false

/-- Modelled from the spec's resolution rule, for comparison with the
code: an argument name has a resolution when it is a universe member, or
has a local binding, or has a free-variable binding.  A nested
Formula/Application is not a name (it is resolved by interpreting it), so
it never counts as an unresolved name. -/
def Arg.hasResolution (st : LState) (b : SAT) : Arg → Bool
  | .name s =>
    decide (s ∈ st.univ) || (SAT.lookup b s).isSome || (SAT.lookup st.free s).isSome
  | .term s =>
    decide (s ≠ "" ∧ s ∈ st.univ) || (decide (s ≠ "") && (SAT.lookup b s).isSome)
      || (decide (s ≠ "") && (SAT.lookup st.free s).isSome)
  | .boolVal _ => false
  | .nested _ => true

/-- A binding environment is well formed for a universe when every bound
value is a registered (non-empty-named) universe member — the invariant
every environment reachable through the API satisfies, since free-variable
binding registers its value and quantifiers bind universe elements. -/
def SAT.WF (univ : List Name) (m : SAT) : Prop :=
  ∀ p ∈ m, p.2 ≠ "" ∧ p.2 ∈ univ

theorem SAT.lookup_mem {m : SAT} {k v : Name} (h : SAT.lookup m k = some v) :
    (k, v) ∈ m := by
  unfold SAT.lookup at h
  cases hf : m.find? (fun p => p.1 == k) with
  | none => simp [hf] at h
  | some pr =>
    simp [hf] at h
    have hmem := List.mem_of_find?_eq_some hf
    have hp := List.find?_some hf
    have : pr.1 = k := by simpa using hp
    have : pr = (k, v) := by
      cases pr; simp_all
    rw [this] at hmem; exact hmem

theorem termInit_of_mem (st : LState) (s : Name) (h : s ∈ st.univ) :
    termInit st s = st := by
  simp [termInit, h]

theorem termify_of_inUniv : ∀ (st : LState) (args : ArgList),
    args.all (Arg.inUniv st.univ) = true → termify st args = .ok (args.names, st)
  | _, .nil, _ => rfl
  | st, .cons a rest, h => by
    rw [ArgList.all] at h
    obtain ⟨h1, h2⟩ := Bool.and_eq_true_iff.mp h
    cases a with
    | name s =>
      have hs : s ∈ st.univ := by simpa [Arg.inUniv] using h1
      rw [termify, termInit_of_mem st s hs, termify_of_inUniv st rest h2]
      rfl
    | term s =>
      rw [termify, termify_of_inUniv st rest h2]
      rfl
    | boolVal v => simp [Arg.inUniv] at h1
    | nested f => simp [Arg.inUniv] at h1

/-- Discriminator for a non-raising call. -/
def exceptIsOk {ε α : Type} : Except ε α → Bool
  | .ok _ => true
  | .error _ => false

/-- Claim C6 as stated: `clear_all()` empties the Universe, every
predicate's fact table, the free-variable store, and the knowledge base. -/
def claimC6Statement : Prop :=
  ∀ (st : LState) (p : Predicate),
    (clear_all st).univ = [] ∧ (clear_all st).free = [] ∧ (clear_all st).kb = []
    ∧ tableOf (clear_all st) p = []

/-- Claim C7 as stated: interpreting a deferred predicate application
raises exactly when some argument name has no resolution (an argument
that is itself a Formula/Application is not a name: per the claim it is
recursively interpreted, not looked up). -/
def claimC7Statement : Prop :=
  ∀ (st : LState) (p : Predicate) (args : ArgList) (b : SAT),
    (args.length : Int) = p.arity →
    ((∃ err, interpret st (.app p args) b = .error err) ↔
      ∃ a ∈ args.toList, a.hasResolution st b = false)

/-- Claim C8 as stated: Predicate construction fails fast for every arity
outside {0, 1, 2}. -/
def claimC8Statement : Prop :=
  ∀ (st : LState) (arity : Int) (name : Name) (id : Nat),
    arity ≠ 0 ∧ arity ≠ 1 ∧ arity ≠ 2 →
    ∃ err, Predicate.init st arity name id = .error err

/-- Claim C10 as stated: after binding a free variable to `v`, the stored
value is a Term named `v` that is a member of the Universe. -/
def claimC10Statement : Prop :=
  ∀ (st : LState) (key v : Name),
    SAT.lookup (freeBind st key v).free key = some v
    ∧ v ∈ (freeBind st key v).univ

@[simp] theorem exceptOkBind {ε α β : Type} (a : α) (f : α → Except ε β) :
    (Except.ok a : Except ε α) >>= f = f a := rfl

@[simp] theorem exceptErrorBind {ε α β : Type} (e : ε) (f : α → Except ε β) :
    (Except.error e : Except ε α) >>= f = .error e := rfl

theorem lookupMapReplace : ∀ (m : SAT) (k v : Name),
    m.any (fun p => p.1 == k) = true →
    SAT.lookup (m.map (fun p => if p.1 == k then (k, v) else p)) k = some v
  | [], _, _, h => by simp at h
  | pr :: m, k, v, h => by
    rw [List.map_cons]
    by_cases hk : pr.1 == k
    · rw [if_pos hk]
      simp [SAT.lookup, List.find?_cons_of_pos]
    · rw [if_neg hk]
      have h' : m.any (fun p => p.1 == k) = true := by
        rw [List.any_cons] at h
        simpa [hk] using h
      have ih := lookupMapReplace m k v h'
      rw [SAT.lookup] at ih ⊢
      rw [List.find?_cons_of_neg]
      · exact ih
      · simpa using hk

theorem lookupAppendMissing : ∀ (m : SAT) (k v : Name),
    m.any (fun p => p.1 == k) = false →
    SAT.lookup (m ++ [(k, v)]) k = some v
  | [], k, v, _ => by simp [SAT.lookup, List.find?]
  | pr :: m, k, v, h => by
    rw [List.any_cons, Bool.or_eq_false_iff] at h
    rw [List.cons_append]
    have ih := lookupAppendMissing m k v h.2
    rw [SAT.lookup] at ih ⊢
    rw [List.find?_cons_of_neg]
    · exact ih
    · simpa using h.1

theorem SAT.lookup_insert (m : SAT) (k v : Name) :
    SAT.lookup (m.insert k v) k = some v := by
  unfold SAT.insert
  cases hany : m.any (fun p => p.1 == k) with
  | true => simpa [hany] using lookupMapReplace m k v hany
  | false => simpa [hany] using lookupAppendMissing m k v hany

/-- C1: for a Predicate applied to an argument list of its arity,
`Predicate.__call__` evaluates eagerly when every argument is a Universe
member, returning `Top` exactly when the coerced Term tuple is in the fact
table and `Bot` otherwise, with the state (hence every fact table)
untouched; and when at least one argument is not a Universe member it
returns the deferred Application capturing the predicate and the raw
arguments (never `Top`/`Bot`), again leaving the state untouched. -/
theorem C1_predicate_call (st : LState) (p : Predicate) (args : ArgList)
    (hlen : (args.length : Int) = p.arity) :
    (args.all (Arg.inUniv st.univ) = true →
      Predicate.call st p args =
        .ok (if args.names ∈ tableOf st p then (Formula.top, st) else (Formula.bot, st)))
    ∧ (args.all (Arg.inUniv st.univ) = false →
      Predicate.call st p args = .ok (Formula.app p args, st)) := by
  constructor
  · intro hall
    unfold Predicate.call
    rw [if_neg (not_not_intro hlen), if_pos hall, termify_of_inUniv st args hall]
    rfl
  · intro hsome
    unfold Predicate.call
    rw [if_neg (not_not_intro hlen), if_neg (by simp [hsome])]

/-- Witness for C1: a unary predicate with fact table containing the tuple
("a") over universe containing "a"; calling it on "a" yields Top with the
state unchanged, and calling it on the unregistered name "x" yields the
deferred application. -/
theorem C1_predicate_call_witness :
    Predicate.call ⟨["a"], [], [(1, [["a"]])], [], []⟩ ⟨1, 1, "P"⟩
        (.cons (.name "a") .nil)
      = .ok (Formula.top, ⟨["a"], [], [(1, [["a"]])], [], []⟩)
    ∧ Predicate.call ⟨["a"], [], [(1, [["a"]])], [], []⟩ ⟨1, 1, "P"⟩
        (.cons (.name "x") .nil)
      = .ok (Formula.app ⟨1, 1, "P"⟩ (.cons (.name "x") .nil),
             ⟨["a"], [], [(1, [["a"]])], [], []⟩) := by
  constructor
  · exact ((C1_predicate_call ⟨["a"], [], [(1, [["a"]])], [], []⟩ ⟨1, 1, "P"⟩
      (.cons (.name "a") .nil) (by decide)).1 (by decide)).trans (by rfl)
  · exact (C1_predicate_call ⟨["a"], [], [(1, [["a"]])], [], []⟩ ⟨1, 1, "P"⟩
      (.cons (.name "x") .nil) (by decide)).2 (by decide)

/-- C2: `Forall.interpret` enumerates the Universe's current elements,
binding the binder to each in turn; over an empty Universe it returns
`(true, bindings)`; at the first element falsifying the scope it stops
immediately (the remaining elements are irrelevant) and returns `(false,
bindings-at-that-point)`; when the head element satisfies the scope it
continues over the remaining elements with the accumulated bindings. -/
theorem C2_forall_interpret (st : LState) (x : Name) (s : Formula) (b : SAT) :
    interpret st (.forall_ x s) b = forallAux (interpret st s) x st.univ b
    ∧ forallAux (interpret st s) x [] b = .ok (true, b)
    ∧ (∀ e rest m, interpret st s (b.insert x e) = .ok (false, m) →
        forallAux (interpret st s) x (e :: rest) b = .ok (false, m))
    ∧ (∀ e rest m, interpret st s (b.insert x e) = .ok (true, m) →
        forallAux (interpret st s) x (e :: rest) b =
          forallAux (interpret st s) x rest m) := by
  refine ⟨rfl, rfl, ?_, ?_⟩
  · intro e rest m h
    rw [forallAux, h]
    rfl
  · intro e rest m h
    rw [forallAux, h]
    rfl

/-- Witness for C2: over universe ["a", "b"] the scope `Bot` is falsified
at the first element, so the Forall stops there with the binding x = "a";
and over the empty universe the Forall is true. -/
theorem C2_forall_interpret_witness :
    interpret ⟨["a", "b"], [], [], [], []⟩ (.forall_ "x" .bot) []
      = .ok (false, [("x", "a")])
    ∧ interpret ⟨[], [], [], [], []⟩ (.forall_ "x" .bot) [] = .ok (true, []) := by
  constructor
  · rw [(C2_forall_interpret ⟨["a", "b"], [], [], [], []⟩ "x" .bot []).1]
    exact (C2_forall_interpret ⟨["a", "b"], [], [], [], []⟩ "x" .bot []).2.2.1
      "a" ["b"] [("x", "a")] rfl
  · rw [(C2_forall_interpret ⟨[], [], [], [], []⟩ "x" .bot []).1]
    exact (C2_forall_interpret ⟨[], [], [], [], []⟩ "x" .bot []).2.1

/-- C3: `_And.interpret` and `_Or.interpret` always evaluate both
operands — the left under the incoming bindings giving (b1, m1), then the
right under m1 giving (b2, m2) — and return (b1 and b2, m2), resp.
(b1 or b2, m2), whatever b1 is; the returned bindings m2 accumulate from
both sides. -/
theorem C3_and_or_interpret (st : LState) (l r : Formula) (b m1 m2 : SAT)
    (b1 b2 : Bool)
    (h1 : interpret st l b = .ok (b1, m1))
    (h2 : interpret st r m1 = .ok (b2, m2)) :
    interpret st (.and l r) b = .ok (b1 && b2, m2)
    ∧ interpret st (.or l r) b = .ok (b1 || b2, m2) := by
  constructor <;> simp [interpret, h1, h2]

/-- Witness for C3: the left operand `Bot` is already false, yet the right
operand (an Exists over universe ["a"]) is still evaluated and its witness
binding y = "a" shows up in the returned environment. -/
theorem C3_and_or_interpret_witness :
    interpret ⟨["a"], [], [], [], []⟩ (.and .bot (.exists_ "y" .top)) []
      = .ok (false, [("y", "a")])
    ∧ interpret ⟨["a"], [], [], [], []⟩ (.or .bot (.exists_ "y" .top)) []
      = .ok (true, [("y", "a")]) :=
  C3_and_or_interpret ⟨["a"], [], [], [], []⟩ .bot (.exists_ "y" .top)
    [] [] [("y", "a")] false true rfl rfl

/-- C4: `_Implies.interpret` evaluates the left side; if it is false the
result is `(true, bindings-after-left)` for every right side — the right
side is never evaluated, so none of its effects can appear — and if it is
true the result is exactly the right side's evaluation under the
accumulated bindings. -/
theorem C4_implies_interpret (st : LState) (l r : Formula) (b m1 : SAT) :
    (interpret st l b = .ok (false, m1) →
      interpret st (.implies l r) b = .ok (true, m1))
    ∧ (interpret st l b = .ok (true, m1) →
      interpret st (.implies l r) b = interpret st r m1) := by
  constructor <;> intro h <;> simp [interpret, h]

/-- Witness for C4: with a false antecedent, the implication is true and
the consequent (an Exists that would bind y) leaves no trace in the
returned bindings. -/
theorem C4_implies_interpret_witness :
    interpret ⟨["a"], [], [], [], []⟩ (.implies .bot (.exists_ "y" .top)) []
      = .ok (true, []) :=
  (C4_implies_interpret ⟨["a"], [], [], [], []⟩ .bot (.exists_ "y" .top) [] []).1 rfl

/-- C5: `Forall.fact` builds the Forall and interprets it against the
free-variable environment; on a false result it raises the inconsistency
error carrying the witness bindings and produces no updated state (the
fact is not inserted), and on a true result it adds (formula, name) to
the knowledge base. -/
theorem C5_forall_fact (st : LState) (binder : Name) (scope : Formula)
    (name : Option Name) (tv : Bool) (e : SAT)
    (h : interpret st (.forall_ binder scope) st.free = .ok (tv, e)) :
    (tv = false → forallFact st binder scope name =
      .error (.inconsistent (.forall_ binder scope) e))
    ∧ (tv = true → forallFact st binder scope name =
      .ok { st with kb := (Formula.forall_ binder scope, name) :: st.kb }) := by
  constructor <;> intro htv <;> subst htv <;> simp [forallFact, h]

/-- Witness for C5: over universe ["a"] the scope `Top` validates and the
fact is recorded in the knowledge base, while the scope `Bot` is falsified
with witness binding x = "a" and the fact is rejected. -/
theorem C5_forall_fact_witness :
    forallFact ⟨["a"], [], [], [], []⟩ "x" .top none
      = .ok ⟨["a"], [], [], [], [(.forall_ "x" .top, none)]⟩
    ∧ forallFact ⟨["a"], [], [], [], []⟩ "x" .bot none
      = .error (.inconsistent (.forall_ "x" .bot) [("x", "a")]) := by
  constructor
  · exact (C5_forall_fact ⟨["a"], [], [], [], []⟩ "x" .top none true
      [("x", "a")] rfl).2 rfl
  · exact (C5_forall_fact ⟨["a"], [], [], [], []⟩ "x" .bot none false
      [("x", "a")] rfl).1 rfl

/-- C6 counterexample: `clear_all` does not empty a Predicate object's
fact table.  A predicate holding the fact ("a") still holds it after the
global reset, refuting the claim as stated. -/
theorem C6_counterexample : ¬ claimC6Statement := by
  intro h
  have hc := (h ⟨["a"], [7], [(7, [["a"]])], [], []⟩ ⟨7, 1, "P"⟩).2.2.2
  exact absurd hc (by decide)

/-- C6 (amended): `clear_all()` empties the Universe, the global predicate
registry, the free-variable store and the knowledge base together, but
leaves every Predicate object's fact table untouched. -/
theorem C6_clear_all (st : LState) :
    (clear_all st).univ = [] ∧ (clear_all st).predRegistry = []
    ∧ (clear_all st).free = [] ∧ (clear_all st).kb = []
    ∧ (clear_all st).tables = st.tables := by
  simp [clear_all]

/-- C8 counterexample: `Predicate.__init__` only asserts `arity < 3`, so
the construction with arity -1 — outside {0, 1, 2} — succeeds, refuting
the claim as stated. -/
theorem C8_counterexample : ¬ claimC8Statement := by
  intro h
  obtain ⟨err, herr⟩ := h ⟨[], [], [], [], []⟩ (-1) "P" 0 (by decide)
  rw [Predicate.init, if_pos (by decide : (-1 : Int) < 3)] at herr
  exact Except.noConfusion herr

/-- C8 (amended): Predicate construction fails fast exactly when the
requested arity is 3 or more; every arity strictly below 3 — including
negative values — is accepted. -/
theorem C8_predicate_init (st : LState) (arity : Int) (name : Name) (id : Nat) :
    exceptIsOk (Predicate.init st arity name id) = true ↔ arity < 3 := by
  unfold Predicate.init
  split
  · next hlt => simp [exceptIsOk, hlt]
  · next hge => simp [exceptIsOk, hge]

/-- C9: the boolean/bitwise composition hooks `__and__`, `__or__`,
`__not__` on a Term always raise, for every Term and every operand, and
the comparison hooks `__eq__`, `__lt__`, `__gt__` on a Predicate always
raise, for every Predicate and every operand. -/
theorem C9_term_predicate_ops {α : Type} (t : Term) (p : Predicate) (x : α) :
    t.andOp x = .error (.valueError "And is not defined for terms")
    ∧ t.orOp x = .error (.valueError "Or is not defined for terms")
    ∧ t.notOp x = .error (.valueError "Not is not defined for terms")
    ∧ p.eqOp x = .error (.valueError "Direct equality testing for predicates not supported")
    ∧ p.ltOp x = .error (.valueError "Predicates should not be compared")
    ∧ p.gtOp x = .error (.valueError "Predicates should not be compared") :=
  ⟨rfl, rfl, rfl, rfl, rfl, rfl⟩

/-- C10 counterexample: binding a free variable to the empty string stores
a Term that is not registered in the Universe (Term construction only
registers non-empty names), refuting the claim as stated. -/
theorem C10_counterexample : ¬ claimC10Statement := by
  intro h
  have hc := (h ⟨[], [], [], [], []⟩ "x" "").2
  exact absurd hc (by decide)

/-- C10 (amended): binding a free variable stores a Term named by the
supplied value, and when that value is a non-empty name the Term is a
member of the Universe afterwards — binding to a previously unseen
non-empty name grows the Universe as a side effect. -/
theorem C10_free_bind (st : LState) (key v : Name) :
    SAT.lookup (freeBind st key v).free key = some v
    ∧ (v ≠ "" → v ∈ (freeBind st key v).univ) := by
  constructor
  · exact SAT.lookup_insert _ key v
  · intro hv
    unfold freeBind termInit
    by_cases hmem : v ∈ st.univ
    · simp [hmem]
    · simp [hmem, hv]

/-- Witness for C10: binding x to the fresh name "a" stores it and
registers "a" in the Universe. -/
theorem C10_free_bind_witness :
    SAT.lookup (freeBind ⟨[], [], [], [], []⟩ "x" "a").free "x" = some "a"
    ∧ "a" ∈ (freeBind ⟨[], [], [], [], []⟩ "x" "a").univ :=
  ⟨(C10_free_bind ⟨[], [], [], [], []⟩ "x" "a").1,
   (C10_free_bind ⟨[], [], [], [], []⟩ "x" "a").2 (by decide)⟩

theorem argListAll_toList (p : Arg → Bool) : ∀ (args : ArgList),
    args.all p = args.toList.all p
  | .nil => rfl
  | .cons a rest => by
    rw [ArgList.all, ArgList.toList, List.all_cons, argListAll_toList p rest]

theorem termifyR_ok (u : List Name) : ∀ (rs : List RVal),
    rs.all (RVal.inUniv u) = true → ∃ ns, termifyR rs = .ok ns
  | [], _ => ⟨[], rfl⟩
  | .rawName s :: rest, h => by
    rw [List.all_cons, Bool.and_eq_true_iff] at h
    obtain ⟨ns, hns⟩ := termifyR_ok u rest h.2
    exact ⟨s :: ns, by rw [termifyR, hns]; rfl⟩
  | .term s :: rest, h => by
    rw [List.all_cons, Bool.and_eq_true_iff] at h
    obtain ⟨ns, hns⟩ := termifyR_ok u rest h.2
    exact ⟨s :: ns, by rw [termifyR, hns]; rfl⟩
  | .boolVal v :: rest, h => by
    rw [List.all_cons, Bool.and_eq_true_iff] at h
    simp [RVal.inUniv] at h

theorem callR_eager_of (st : LState) (p : Predicate) (rs : List RVal)
    (hlen : (rs.length : Int) = p.arity)
    (hall : rs.all (RVal.inUniv st.univ) = true) :
    ∃ tv, callR st p rs = .ok (.eager tv) := by
  obtain ⟨ns, hns⟩ := termifyR_ok st.univ rs hall
  refine ⟨decide (ns ∈ tableOf st p), ?_⟩
  unfold callR
  rw [if_neg (not_not_intro hlen), if_pos hall, hns]
  rfl

theorem resolveNameArg_char (st : LState) (b : SAT)
    (hb : SAT.WF st.univ b) (hf : SAT.WF st.univ st.free) (s : Name) :
    (Arg.hasResolution st b (.name s) = true →
      ∃ r, resolveNameArg st b s = .ok r ∧ RVal.inUniv st.univ r = true)
    ∧ (Arg.hasResolution st b (.name s) = false →
      resolveNameArg st b s = .error (.unbound s st.univ st.free)) := by
  by_cases hmem : s ∈ st.univ
  · constructor
    · intro _
      exact ⟨.rawName s, by rw [resolveNameArg, if_pos hmem],
        by simp [RVal.inUniv, hmem]⟩
    · intro hres
      simp [Arg.hasResolution, hmem] at hres
  · cases hbl : SAT.lookup b s with
    | some v =>
      constructor
      · intro _
        refine ⟨.term v, by rw [resolveNameArg, if_neg hmem, hbl], ?_⟩
        have hwf := hb _ (SAT.lookup_mem hbl)
        simp [RVal.inUniv, hwf.1, hwf.2]
      · intro hres
        simp [Arg.hasResolution, hbl] at hres
    | none =>
      cases hfl : SAT.lookup st.free s with
      | some v =>
        constructor
        · intro _
          refine ⟨.term v, by rw [resolveNameArg, if_neg hmem, hbl, hfl], ?_⟩
          have hwf := hf _ (SAT.lookup_mem hfl)
          simp [RVal.inUniv, hwf.1, hwf.2]
        · intro hres
          simp [Arg.hasResolution, hfl] at hres
      | none =>
        constructor
        · intro hres
          simp [Arg.hasResolution, hmem, hbl, hfl] at hres
        · intro _
          rw [resolveNameArg, if_neg hmem, hbl, hfl]

theorem resolveTermArg_char (st : LState) (b : SAT)
    (hb : SAT.WF st.univ b) (hf : SAT.WF st.univ st.free) (s : Name) :
    (Arg.hasResolution st b (.term s) = true →
      ∃ r, resolveTermArg st b s = .ok r ∧ RVal.inUniv st.univ r = true)
    ∧ (Arg.hasResolution st b (.term s) = false →
      resolveTermArg st b s = .error (.unbound s st.univ st.free)) := by
  by_cases hne : s = ""
  · subst hne
    constructor
    · intro hres
      simp [Arg.hasResolution] at hres
    · intro _
      rw [resolveTermArg, if_neg (by simp)]
      simp
  · by_cases hmem : s ∈ st.univ
    · constructor
      · intro _
        exact ⟨.term s, by rw [resolveTermArg, if_pos ⟨hne, hmem⟩],
          by simp [RVal.inUniv, hne, hmem]⟩
      · intro hres
        simp [Arg.hasResolution, hne, hmem] at hres
    · have hcond : ¬(s ≠ "" ∧ s ∈ st.univ) := fun hc => hmem hc.2
      cases hbl : SAT.lookup b s with
      | some v =>
        constructor
        · intro _
          refine ⟨.term v,
            by rw [resolveTermArg, if_neg hcond]; simp [hne, hbl], ?_⟩
          have hwf := hb _ (SAT.lookup_mem hbl)
          simp [RVal.inUniv, hwf.1, hwf.2]
        · intro hres
          simp [Arg.hasResolution, hne, hbl] at hres
      | none =>
        cases hfl : SAT.lookup st.free s with
        | some v =>
          constructor
          · intro _
            refine ⟨.term v,
              by rw [resolveTermArg, if_neg hcond]; simp [hne, hbl, hfl], ?_⟩
            have hwf := hf _ (SAT.lookup_mem hfl)
            simp [RVal.inUniv, hwf.1, hwf.2]
          · intro hres
            simp [Arg.hasResolution, hne, hfl] at hres
        | none =>
          constructor
          · intro hres
            simp [Arg.hasResolution, hne, hmem, hbl, hfl] at hres
          · intro _
            rw [resolveTermArg, if_neg hcond]
            simp [hne, hbl, hfl]

theorem resolveArg_flat_char (st : LState) (b : SAT)
    (hb : SAT.WF st.univ b) (hf : SAT.WF st.univ st.free)
    (a : Arg) (hfl : a.flat = true) :
    (a.hasResolution st b = true →
      ∃ r, resolveArg st a b = .ok (r, b) ∧ RVal.inUniv st.univ r = true)
    ∧ (a.hasResolution st b = false →
      resolveArg st a b = .error (.unbound a.nameOf st.univ st.free)) := by
  cases a with
  | name s =>
    have hc := resolveNameArg_char st b hb hf s
    constructor
    · intro hres
      obtain ⟨r, hok, hu⟩ := hc.1 hres
      exact ⟨r, by simp only [resolveArg, hok, Except.map], hu⟩
    · intro hres
      simp only [resolveArg, hc.2 hres, Except.map, Arg.nameOf]
  | term s =>
    have hc := resolveTermArg_char st b hb hf s
    constructor
    · intro hres
      obtain ⟨r, hok, hu⟩ := hc.1 hres
      exact ⟨r, by simp only [resolveArg, hok, Except.map], hu⟩
    · intro hres
      simp only [resolveArg, hc.2 hres, Except.map, Arg.nameOf]
  | boolVal v => simp [Arg.flat] at hfl
  | nested f => simp [Arg.flat] at hfl

theorem resolveArgs_flat_char (st : LState) (b : SAT)
    (hb : SAT.WF st.univ b) (hf : SAT.WF st.univ st.free) :
    ∀ (args : ArgList), args.all Arg.flat = true →
    ((args.all (fun a => a.hasResolution st b) = true →
      ∃ rs, resolveArgs st args b = .ok (rs, b)
        ∧ rs.all (RVal.inUniv st.univ) = true ∧ rs.length = args.length)
    ∧ (args.all (fun a => a.hasResolution st b) = false →
      ∃ a, a ∈ args.toList ∧ a.hasResolution st b = false
        ∧ resolveArgs st args b = .error (.unbound a.nameOf st.univ st.free)))
  | .nil, _ => by
    constructor
    · intro _
      exact ⟨[], rfl, rfl, rfl⟩
    · intro h
      simp [ArgList.all] at h
  | .cons a rest, hflat => by
    rw [ArgList.all, Bool.and_eq_true_iff] at hflat
    have ihr := resolveArgs_flat_char st b hb hf rest hflat.2
    have ca := resolveArg_flat_char st b hb hf a hflat.1
    constructor
    · intro hall
      rw [ArgList.all, Bool.and_eq_true_iff] at hall
      obtain ⟨r, hra, hru⟩ := ca.1 hall.1
      obtain ⟨rs, hrs, hrsu, hrsl⟩ := ihr.1 hall.2
      refine ⟨r :: rs, ?_, ?_, ?_⟩
      · simp only [resolveArgs, hra, exceptOkBind, hrs]
      · simp [List.all_cons, hru, hrsu]
      · simp [ArgList.length, hrsl, Nat.add_comm]
    · intro hall
      by_cases hA : a.hasResolution st b = true
      · have hrest : rest.all (fun a => a.hasResolution st b) = false := by
          rw [ArgList.all, hA] at hall
          simpa using hall
        obtain ⟨r, hra, _⟩ := ca.1 hA
        obtain ⟨a', ha', hres', herr'⟩ := ihr.2 hrest
        refine ⟨a', List.mem_cons_of_mem a ha', hres', ?_⟩
        simp only [resolveArgs, hra, exceptOkBind, herr', exceptErrorBind]
      · have hA' : a.hasResolution st b = false := by
          cases hx : a.hasResolution st b with
          | true => exact absurd hx hA
          | false => rfl
        refine ⟨a, List.mem_cons_self a _, hA', ?_⟩
        simp only [resolveArgs, ca.2 hA', exceptErrorBind]

/-- C7 counterexample: interpreting a deferred application whose single
argument is the nested formula `Top` raises the unbound-variable error on
the substituted truth value `True`, although no argument name lacks a
resolution — refuting the "exactly when" of the claim as stated. -/
theorem C7_counterexample : ¬ claimC7Statement := by
  intro h
  have hex := (h ⟨[], [], [(0, [])], [], []⟩ ⟨0, 1, "P"⟩
      (.cons (.nested .top) .nil) [] (by decide)).1
    ⟨.unbound "True" [] [], rfl⟩
  obtain ⟨a, ha, hres⟩ := hex
  have : a = Arg.nested .top := List.mem_singleton.mp ha
  subst this
  simp [Arg.hasResolution] at hres

/-- C7 (amended): for a deferred application whose raw arguments are all
names or Terms (no nested Formula/Application and no bool), over binding
environments whose values are registered universe members, interpretation
raises exactly when some argument has no resolution (universe membership,
then local binding, then free variable), and any raised error is the
unbound-variable error reporting an unresolved argument's name together
with the Universe and free-variable contents.  (A nested
Formula/Application argument is interpreted and replaced by its truth
value, and re-application then always raises on that non-Term value, so
the unrestricted "exactly when" of the claim fails.) -/
theorem C7_interpret_unbound (st : LState) (p : Predicate) (args : ArgList)
    (b : SAT)
    (hlen : (args.length : Int) = p.arity)
    (hflat : args.all Arg.flat = true)
    (hb : SAT.WF st.univ b) (hf : SAT.WF st.univ st.free) :
    ((∃ err, interpret st (.app p args) b = .error err) ↔
      ∃ a ∈ args.toList, a.hasResolution st b = false)
    ∧ (∀ err, interpret st (.app p args) b = .error err →
      ∃ a ∈ args.toList, a.hasResolution st b = false
        ∧ err = .unbound a.nameOf st.univ st.free) := by
  have hd := resolveArgs_flat_char st b hb hf args hflat
  have hallCase : args.all (fun a => a.hasResolution st b) = true →
      ∃ tv, interpret st (.app p args) b = .ok (tv, b) := by
    intro hall
    obtain ⟨rs, hrs, hrsu, hrsl⟩ := hd.1 hall
    have hlen' : (rs.length : Int) = p.arity := by rw [hrsl]; exact hlen
    obtain ⟨tv, htv⟩ := callR_eager_of st p rs hlen' hrsu
    exact ⟨tv, by simp only [interpret, hrs, exceptOkBind, htv]⟩
  have herrCase : args.all (fun a => a.hasResolution st b) = false →
      ∃ a ∈ args.toList, a.hasResolution st b = false
        ∧ interpret st (.app p args) b
          = .error (.unbound a.nameOf st.univ st.free) := by
    intro hall
    obtain ⟨a, ha, hres, herr⟩ := hd.2 hall
    exact ⟨a, ha, hres, by simp only [interpret, herr, exceptErrorBind]⟩
  constructor
  · constructor
    · rintro ⟨err, herr⟩
      cases hall : args.all (fun a => a.hasResolution st b) with
      | true =>
        obtain ⟨tv, htv⟩ := hallCase hall
        rw [htv] at herr
        exact Except.noConfusion herr
      | false =>
        obtain ⟨a, ha, hres, _⟩ := herrCase hall
        exact ⟨a, ha, hres⟩
    · rintro ⟨a, ha, hres⟩
      have hall : args.all (fun a => a.hasResolution st b) = false := by
        rw [argListAll_toList]
        exact List.all_eq_false.mpr ⟨a, ha, by simp [hres]⟩
      obtain ⟨a', _, _, herr'⟩ := herrCase hall
      exact ⟨_, herr'⟩
  · intro err herr
    cases hall : args.all (fun a => a.hasResolution st b) with
    | true =>
      obtain ⟨tv, htv⟩ := hallCase hall
      rw [htv] at herr
      exact Except.noConfusion herr
    | false =>
      obtain ⟨a', ha', hres', herr'⟩ := herrCase hall
      rw [herr'] at herr
      exact ⟨a', ha', hres', (Except.error.injEq _ _).mp herr.symm⟩

/-- Witness for C7 (amended): the unregistered, unbound name "zz" has no
resolution, so interpreting the deferred application raises. -/
theorem C7_interpret_unbound_witness :
    ∃ err, interpret ⟨["a"], [], [(0, [])], [], []⟩
      (.app ⟨0, 1, "P"⟩ (.cons (.name "zz") .nil)) [] = .error err :=
  (C7_interpret_unbound ⟨["a"], [], [(0, [])], [], []⟩ ⟨0, 1, "P"⟩
      (.cons (.name "zz") .nil) [] (by decide) rfl
      (by simp [SAT.WF]) (by simp [SAT.WF])).1.mpr
    ⟨.name "zz", List.mem_cons_self _ _, rfl⟩
